import Mathlib

/-!
Verification of the block-structured RFID tag storage protocol and the tag
watcher of mtesseract/rustberry (`jukebox/jukeboxd/src/rfid.rs` and
`jukebox/jukeboxd/src/user_requests.rs`).

The Rust code is embedded shallowly:

* machine integers (`u8`, `usize`) become `Nat`; the source never relies on
  wraparound (its `u8` counters stay below 17), so no `% 256` is needed;
* the MFRC522 hardware is replaced by an explicit memory
  `TagMem : Nat → List Nat` mapping a physical block address to its 16 bytes,
  and every `mifare_write` is recorded in a commit trace
  `Commits = List (address × 16 bytes)`;
* the source's process aborts — `expect`/`unwrap` calls and out-of-bounds
  slice indexing — are modelled by the error `Panic.panicked` of an `Except`;
  none of the embedded functions has a non-panic error path, exactly like the
  Rust source, whose `io::Error` returns are never constructed;
* in the simulated tag, `authenticate`/`mifare_read`/`mifare_write` always
  succeed (the claims under study are about the protocol logic, not about
  hardware faults), so the only reachable panic is the out-of-bounds index
  into `DATA_BLOCKS` and the decoder's `unwrap`;
* strings are represented by their UTF-8 byte sequences (`List Nat`); UTF-8
  encoding is injective, so round-tripping the byte sequence is equivalent to
  round-tripping the Rust `String`.  The validity check performed by
  `str::from_utf8` inside `rmp::decode::read_str` is modelled by the
  executable validator `isValidUtf8`.
-/

deriving instance DecidableEq for Except

namespace Rustberry

/-- A Rust process abort: `expect`, `unwrap`, or a panicking slice index. -/
inductive Panic where
  | panicked : Panic
deriving DecidableEq

/-- The commit trace: every `mifare_write` performed, in order, as
(physical block address, the 16 bytes written). -/
abbrev Commits := List (Nat × List Nat)

/-- Tag memory: physical block address ↦ current 16-byte content. -/
abbrev TagMem := Nat → List Nat

/-- The `const DATA_BLOCKS: [u8; 9] = [8, 9, 10, 12, 13, 14, 16, 17, 18];`
(rfid.rs line 52): the 9 usable data blocks, sector trailers excluded. -/
def DATA_BLOCKS : List Nat := [8, 9, 10, 12, 13, 14, 16, 17, 18]

/-- The `const N_BLOCKS: u8 = 9;` (rfid.rs line 53). -/
def N_BLOCKS : Nat := 9

/-- The `const N_BLOCK_SIZE: u8 = 16;` (rfid.rs line 54). -/
def N_BLOCK_SIZE : Nat := 16

/-- The `struct TagWriter` (rfid.rs lines 44-50), minus the hardware handle and
uid, which the embedding replaces by the explicit commit trace. -/
structure TagWriter where
  current_block : Nat
  buffered_data : List Nat
  current_pos_in_buffered_data : Nat
deriving DecidableEq

/-- The `struct TagReader` (rfid.rs lines 37-42), minus the hardware handle. -/
structure TagReader where
  current_block : Nat
  current_pos_in_block : Nat
deriving DecidableEq

/-- The `Tag::new_writer` (rfid.rs lines 120-128). -/
def freshWriter : TagWriter :=
  { current_block := 0, buffered_data := List.replicate 16 0,
    current_pos_in_buffered_data := 0 }

/-- The `Tag::new_reader` (rfid.rs lines 111-118). -/
def freshReader : TagReader :=
  { current_block := 0, current_pos_in_block := 0 }

/-- A simulated blank tag: every block reads as 16 zero bytes. -/
def zeroMem : TagMem := fun _ => List.replicate 16 0

/-- Apply a commit trace to a tag memory, in order (later writes win). -/
def applyCommits (mem : TagMem) (cs : Commits) : TagMem :=
  cs.foldl (fun m c => fun a => if a = c.1 then c.2 else m a) mem

/-- The `slice::chunks(16)`: the input split into consecutive 16-byte chunks,
the last one possibly shorter; an empty slice yields no chunks. -/
def chunks16 : List Nat → List (List Nat)
  | [] => []
  | b0 :: b1 :: b2 :: b3 :: b4 :: b5 :: b6 :: b7 ::
    b8 :: b9 :: b10 :: b11 :: b12 :: b13 :: b14 :: b15 :: tail =>
    [b0, b1, b2, b3, b4, b5, b6, b7, b8, b9, b10, b11, b12, b13, b14, b15] ::
      chunks16 tail
  | rest => [rest]

/-- The closure body of the `for_each` over `buf[n_to_skip..].chunks(16)`
in `TagWriter::write` (rfid.rs lines 167-200), folded over the chunk list:
a full 16-byte chunk is authenticated and committed at
`DATA_BLOCKS[current_block]` (a panicking index when `current_block ≥ 9`,
modelled by `Panic`) and the block index advances; a shorter chunk is
copied to the front of the staging buffer
(`buffered_data[0..len] = chunk; current_pos_in_buffered_data += len`). -/
def TagWriter.foldChunks (w : TagWriter) :
    List (List Nat) → Commits × Except Panic TagWriter
  | [] => ([], .ok w)
  | chunk :: more =>
    if chunk.length = 16 then
      match DATA_BLOCKS[w.current_block]? with
      | none => ([], .error .panicked)
      | some addr =>
        let r := TagWriter.foldChunks
          { w with current_block := w.current_block + 1 } more
        ((addr, chunk) :: r.1, r.2)
    else
      TagWriter.foldChunks
        { w with
          buffered_data := chunk ++ w.buffered_data.drop chunk.length,
          current_pos_in_buffered_data :=
            w.current_pos_in_buffered_data + chunk.length } more

/-- The chunk loop of `TagWriter::write` applied to the not-yet-buffered
remainder of the input slice. -/
def TagWriter.writeChunks (w : TagWriter) (rest : List Nat) :
    Commits × Except Panic TagWriter :=
  w.foldChunks (chunks16 rest)

/-- The `TagWriter::flush` (rfid.rs lines 206-240): if the staging buffer holds
`n > 0` bytes, authenticate and commit them zero-padded to 16 bytes at
`DATA_BLOCKS[current_block]` (panicking index when `current_block ≥ 9`),
advance the block index and clear the buffer; otherwise do nothing. -/
def TagWriter.flush (w : TagWriter) : Commits × Except Panic TagWriter :=
  if 0 < w.current_pos_in_buffered_data then
    match DATA_BLOCKS[w.current_block]? with
    | none => ([], .error .panicked)
    | some addr =>
      ([(addr, w.buffered_data.take w.current_pos_in_buffered_data ++
          List.replicate (16 - w.current_pos_in_buffered_data) 0)],
        .ok { current_block := w.current_block + 1,
              buffered_data := List.replicate 16 0,
              current_pos_in_buffered_data := 0 })
  else ([], .ok w)

/-- The `impl Write for TagWriter`, `fn write` (rfid.rs lines 132-204): if the
staging buffer holds partial data, top it up; if it becomes full, flush it
and continue with the remaining input through the chunk loop, otherwise
return early with the input fully absorbed.  With an empty buffer the whole
input goes through the chunk loop.  Returns `Ok(buf.len())` in both
successful paths. -/
def TagWriter.write (w : TagWriter) (buf : List Nat) :
    Commits × Except Panic (Nat × TagWriter) :=
  if 0 < w.current_pos_in_buffered_data then
    let to_copy := min buf.length (16 - w.current_pos_in_buffered_data)
    let w1 : TagWriter :=
      { w with
        buffered_data := w.buffered_data.take w.current_pos_in_buffered_data ++
          buf.take to_copy ++
          w.buffered_data.drop (w.current_pos_in_buffered_data + to_copy),
        current_pos_in_buffered_data :=
          w.current_pos_in_buffered_data + to_copy }
    if w1.current_pos_in_buffered_data = 16 then
      match w1.flush with
      | (cs1, .error e) => (cs1, .error e)
      | (cs1, .ok w2) =>
        let r := w2.writeChunks (buf.drop to_copy)
        (cs1 ++ r.1, r.2.map fun w3 => (buf.length, w3))
    else ([], .ok (buf.length, w1))
  else
    let r := w.writeChunks buf
    (r.1, r.2.map fun w1 => (buf.length, w1))

/-- The loop of `std::io::Write::write_all`, as used by `rmp::encode` on a
`TagWriter`: while the slice is non-empty, call `write` and drop the bytes
it consumed; a `write` returning `Ok(0)` on a non-empty slice is a
`WriteZero` error, which `write_string` would `unwrap` into a panic.
`iters` bounds the number of loop iterations; every iteration either
consumes at least one byte or terminates the loop, so `buf.length`
iterations always suffice and the 0-iterations branch below is reached
only with an already-empty slice. -/
def write_all_loop (w : TagWriter) (buf : List Nat) :
    Nat → Commits × Except Panic TagWriter
  | 0 => if buf.length = 0 then ([], .ok w) else ([], .error .panicked)
  | iters + 1 =>
    if buf.length = 0 then ([], .ok w)
    else
      match w.write buf with
      | (cs, .error e) => (cs, .error e)
      | (cs, .ok (n, w1)) =>
        if n = 0 then (cs, .error .panicked)
        else
          let r := write_all_loop w1 (buf.drop n) iters
          (cs ++ r.1, r.2)

/-- The `std::io::Write::write_all` on a `TagWriter`. -/
def write_all (w : TagWriter) (buf : List Nat) :
    Commits × Except Panic TagWriter :=
  write_all_loop w buf buf.length

/-- The `rmp::encode::write_str_len`: the MessagePack string-length header.
`len < 32` writes the one-byte FixStr marker `0xa0 | len`; `len < 256`
writes the Str8 marker `0xd9` followed by the length byte; `len < 65536`
the Str16 marker `0xda` followed by the big-endian `u16`; otherwise the
Str32 marker `0xdb` followed by the big-endian `u32`.  Each piece goes
through `write_all` on the `TagWriter`. -/
def write_str_len (w : TagWriter) (n : Nat) : Commits × Except Panic TagWriter :=
  if n < 32 then write_all w [0xa0 + n]
  else if n < 256 then
    match write_all w [0xd9] with
    | (cs, .error e) => (cs, .error e)
    | (cs, .ok w1) =>
      let r := write_all w1 [n]
      (cs ++ r.1, r.2)
  else if n < 65536 then
    match write_all w [0xda] with
    | (cs, .error e) => (cs, .error e)
    | (cs, .ok w1) =>
      let r := write_all w1 [n / 256, n % 256]
      (cs ++ r.1, r.2)
  else
    match write_all w [0xdb] with
    | (cs, .error e) => (cs, .error e)
    | (cs, .ok w1) =>
      let r := write_all w1
        [n / 2 ^ 24 % 256, n / 2 ^ 16 % 256, n / 256 % 256, n % 256]
      (cs ++ r.1, r.2)

/-- The byte sequence produced by the MessagePack string framing:
length header followed by the raw UTF-8 payload bytes. -/
def strHeader (n : Nat) : List Nat :=
  if n < 32 then [0xa0 + n]
  else if n < 256 then [0xd9, n]
  else if n < 65536 then [0xda, n / 256, n % 256]
  else [0xdb, n / 2 ^ 24 % 256, n / 2 ^ 16 % 256, n / 256 % 256, n % 256]

/-- The `TagWriter::write_string` (rfid.rs lines 253-258):
`rmp::encode::write_str(self, s).unwrap(); self.flush();`.
`rmp::encode::write_str` writes the length header and then the payload via
`write_all`; the `unwrap` turns any encoding error into a panic, and the
discarded `flush` result can itself only fail by panicking. -/
def write_string (w : TagWriter) (s : List Nat) :
    Commits × Except Panic TagWriter :=
  match write_str_len w s.length with
  | (cs, .error e) => (cs, .error e)
  | (cs, .ok w1) =>
    match write_all w1 s with
    | (cs2, .error e) => (cs ++ cs2, .error e)
    | (cs2, .ok w2) =>
      let r := w2.flush
      (cs ++ cs2 ++ r.1, r.2)

/-- The `impl Read for TagReader`, `fn read` (rfid.rs lines 262-316): at
`current_block == N_BLOCKS` return 0 bytes; otherwise authenticate and
fetch the current block (always successful on the simulated tag), copy
`min(buf.len(), 16 - current_pos_in_block)` bytes starting at the block
offset, set `current_pos_in_block := (current_pos_in_block + copied) % 16`
and advance `current_block` whenever the new offset is 0. -/
def TagReader.read (r : TagReader) (mem : TagMem) (bufLen : Nat) :
    Except Panic (List Nat × TagReader) :=
  if r.current_block = N_BLOCKS then .ok ([], r)
  else
    match DATA_BLOCKS[r.current_block]? with
    | none => .error .panicked
    | some addr =>
      let response := mem addr
      let bytes_to_copy := min bufLen (16 - r.current_pos_in_block)
      let out := (response.drop r.current_pos_in_block).take bytes_to_copy
      let pos' := (r.current_pos_in_block + bytes_to_copy) % 16
      .ok (out,
        { current_block :=
            if pos' = 0 then r.current_block + 1 else r.current_block,
          current_pos_in_block := pos' })

/-- The loop of `std::io::Read::read_exact`, as used by `rmp::decode` on a
`TagReader`: while fewer than `need` bytes have been obtained, call `read`
for the remainder; a `read` returning 0 bytes first is an `UnexpectedEof`
error, which `read_string` would `unwrap` into a panic.  `iters` bounds
the number of loop iterations; every iteration either obtains at least one
byte or terminates the loop, so `need` iterations always suffice and the
0-iterations branch below is reached only with `need = 0`. -/
def read_exact_loop (mem : TagMem) (r : TagReader) (need : Nat) :
    Nat → Except Panic (List Nat × TagReader)
  | 0 => if need = 0 then .ok ([], r) else .error .panicked
  | iters + 1 =>
    if need = 0 then .ok ([], r)
    else
      match r.read mem need with
      | .error e => .error e
      | .ok (chunk, r1) =>
        if chunk.length = 0 then .error .panicked
        else
          match read_exact_loop mem r1 (need - chunk.length) iters with
          | .error e => .error e
          | .ok (restBytes, r2) => .ok (chunk ++ restBytes, r2)

/-- The `std::io::Read::read_exact` on a `TagReader`. -/
def readExact (mem : TagMem) (r : TagReader) (need : Nat) :
    Except Panic (List Nat × TagReader) :=
  read_exact_loop mem r need need

/-- The `rmp::decode::read_str_len` on a `TagReader`: read the one-byte marker
(via `read_exact`); `0xa0..=0xbf` is FixStr carrying the length,
`0xd9`/`0xda`/`0xdb` are Str8/Str16/Str32 followed by the big-endian
length; any other marker is a `TypeMismatch` decode error, which
`read_string` unwraps into a panic. -/
def read_str_len (mem : TagMem) (r : TagReader) :
    Except Panic (Nat × TagReader) :=
  match readExact mem r 1 with
  | .error e => .error e
  | .ok (mb, r1) =>
    let m := mb.headD 0
    if 0xa0 ≤ m ∧ m ≤ 0xbf then .ok (m - 0xa0, r1)
    else if m = 0xd9 then
      match readExact mem r1 1 with
      | .error e => .error e
      | .ok (lb, r2) => .ok (lb.headD 0, r2)
    else if m = 0xda then
      match readExact mem r1 2 with
      | .error e => .error e
      | .ok (lb, r2) => .ok (lb.getD 0 0 * 256 + lb.getD 1 0, r2)
    else if m = 0xdb then
      match readExact mem r1 4 with
      | .error e => .error e
      | .ok (lb, r2) =>
        .ok (((lb.getD 0 0 * 256 + lb.getD 1 0) * 256 + lb.getD 2 0) * 256 +
          lb.getD 3 0, r2)
    else .error .panicked

/-- The `isCont b` holds of a UTF-8 continuation byte `0x80..=0xbf`. -/
def isCont (b : Nat) : Bool := decide (0x80 ≤ b ∧ b ≤ 0xbf)

/-- The UTF-8 validity check performed by `str::from_utf8` inside
`rmp::decode::read_str`: the standard table of well-formed byte sequences
(RFC 3629), including the surrogate and overlong-encoding exclusions. -/
def isValidUtf8 : List Nat → Bool
  | [] => true
  | b :: rest =>
    if b ≤ 0x7f then isValidUtf8 rest
    else if 0xc2 ≤ b ∧ b ≤ 0xdf then
      match rest with
      | c1 :: r => isCont c1 && isValidUtf8 r
      | [] => false
    else if b = 0xe0 then
      match rest with
      | c1 :: c2 :: r =>
        decide (0xa0 ≤ c1 ∧ c1 ≤ 0xbf) && isCont c2 && isValidUtf8 r
      | _ => false
    else if 0xe1 ≤ b ∧ b ≤ 0xec then
      match rest with
      | c1 :: c2 :: r => isCont c1 && isCont c2 && isValidUtf8 r
      | _ => false
    else if b = 0xed then
      match rest with
      | c1 :: c2 :: r =>
        decide (0x80 ≤ c1 ∧ c1 ≤ 0x9f) && isCont c2 && isValidUtf8 r
      | _ => false
    else if 0xee ≤ b ∧ b ≤ 0xef then
      match rest with
      | c1 :: c2 :: r => isCont c1 && isCont c2 && isValidUtf8 r
      | _ => false
    else if b = 0xf0 then
      match rest with
      | c1 :: c2 :: c3 :: r =>
        decide (0x90 ≤ c1 ∧ c1 ≤ 0xbf) && isCont c2 && isCont c3 &&
          isValidUtf8 r
      | _ => false
    else if 0xf1 ≤ b ∧ b ≤ 0xf3 then
      match rest with
      | c1 :: c2 :: c3 :: r =>
        isCont c1 && isCont c2 && isCont c3 && isValidUtf8 r
      | _ => false
    else if b = 0xf4 then
      match rest with
      | c1 :: c2 :: c3 :: r =>
        decide (0x80 ≤ c1 ∧ c1 ≤ 0x8f) && isCont c2 && isCont c3 &&
          isValidUtf8 r
      | _ => false
    else false

/-- The `TagReader::read_string` (rfid.rs lines 244-249):
`rmp::decode::read_str(self, &mut [0u8; 1024]).unwrap().to_string()` from a
fresh reader.  `read_str` reads the length header, rejects a length larger
than the 1024-byte scratch buffer, reads the payload via `read_exact` and
validates it as UTF-8; the `unwrap` turns every decode error into a panic,
so the function never returns a non-panic error — exactly like the source,
whose `Result` is always `Ok`. -/
def read_string (mem : TagMem) : Except Panic (List Nat) :=
  match read_str_len mem freshReader with
  | .error e => .error e
  | .ok (len, r1) =>
    if 1024 < len then .error .panicked
    else
      match readExact mem r1 len with
      | .error e => .error e
      | .ok (payload, _) =>
        if isValidUtf8 payload then .ok payload
        else .error .panicked

/-! ## Transport and session controller (`RfidController::open_tag`) -/

/-- The state of the reader's field during one poll. -/
inductive BusState where
  | absent : BusState
  | present : Nat → BusState
  | fault : BusState
deriving DecidableEq

/-- Errors of the `rfid_rs` crate surfaced by the controller. -/
inductive RfidError where
  | timeout : RfidError
  | readFault : RfidError
deriving DecidableEq

/-- The `rfid_rs::MFRC522::new_card_present`: returns `Ok(())` exactly when a
new card answers the REQA poll; when nothing is in the field the request
times out and the crate returns its timeout error.  The source itself
documents this contract: the commented-out earlier version of `open_tag`
(rfid.rs lines 90-106) treats `new_card_present().is_ok()` as "card
present" and maps the error case to `Ok(None)`. -/
def new_card_present : BusState → Except RfidError Unit
  | .absent => .error .timeout
  | .present _ => .ok ()
  | .fault => .error .readFault

/-- The `rfid_rs::MFRC522::read_card_serial`: anti-collision, yielding the uid
of the answering card; fails on a bus/read fault. -/
def read_card_serial : BusState → Except RfidError Nat
  | .present uid => .ok uid
  | _ => .error .readFault

/-- The `RfidController::open_tag` (rfid.rs lines 74-107), the live code:
`match new_card_present() { Ok(()) => match read_card_serial() { Ok(uid) =>
Ok(Some(tag)), Err(e) => Err(e) }, Err(e) => Err(e) }`.  Note that every
error of `new_card_present` — including the timeout produced by mere tag
absence — is propagated as `Err`; no path returns `Ok(None)`. -/
def open_tag (b : BusState) : Except RfidError (Option Nat) :=
  match new_card_present b with
  | .ok () =>
    match read_card_serial b with
    | .ok uid => .ok (some uid)
    | .error e => .error e
  | .error e => .error e

/-! ## The tag watcher (`UserRequestTransmitterRfid::run`) -/

/-- One poll outcome of `open_tag` as seen by the watcher loop
(user_requests.rs lines 156-188): a hard error, no tag, or a tag carrying
an identifier and the simulated tag memory its reader will decode. -/
inductive Poll where
  | perr : Poll
  | pnone : Poll
  | ptag : Nat → TagMem → Poll

/-- One iteration of the watcher loop of `UserRequestTransmitterRfid::run`
(user_requests.rs lines 156-188), parametrised by the JSON deserialisation
`deser` of the decoded string into the request type `T` (the source is
generic in `T: DeserializeOwned`; its `.expect` on a failing
deserialisation is a panic).  Returns the updated `last_uid` and the list
of values sent on the channel in this iteration (`none` = absence event,
`some req` = presence event; `tx.send` itself always succeeds).  On a new
identifier the tag content is decoded with `read_string`, whose decode
failures are panics (the `unwrap` in rfid.rs line 247), so a decode failure
aborts the loop: the `Err` arm of the source's `match` (user_requests.rs
lines 178-184) is unreachable, since `read_string` never returns `Err`. -/
def watcherStep {α : Type} (deser : List Nat → Except Panic α)
    (last : Option Nat) : Poll → Except Panic (Option Nat × List (Option α))
  | .perr => .ok (last, [])
  | .pnone =>
    if last.isSome then .ok (none, [none]) else .ok (last, [])
  | .ptag uid mem =>
    if last = some uid then .ok (last, [])
    else
      match read_string mem with
      | .ok s =>
        match deser s with
        | .ok req => .ok (some uid, [some req])
        | .error e => .error e
      | .error e => .error e

/-- The watcher loop run over a finite list of poll outcomes, starting from
`last_uid`, concatenating everything sent on the channel. -/
def watcherRun {α : Type} (deser : List Nat → Except Panic α)
    (last : Option Nat) :
    List Poll → Except Panic (Option Nat × List (Option α))
  | [] => .ok (last, [])
  | p :: ps =>
    match watcherStep deser last p with
    | .error e => .error e
    | .ok (l1, es) =>
      match watcherRun deser l1 ps with
      | .error e => .error e
      | .ok (l2, es') => .ok (l2, es ++ es')

/-! ## Writer operation sequences and iterated reads -/

/-- An operation performed by a client of the `Write` implementation. -/
inductive WriterOp where
  | write : List Nat → WriterOp
  | flush : WriterOp

/-- One client operation on the `Write` implementation: its commits and
its outcome (the reported write length is dropped). -/
def runOp (w : TagWriter) : WriterOp → Commits × Except Panic TagWriter
  | .write buf =>
    let r := w.write buf
    (r.1, r.2.map Prod.snd)
  | .flush => w.flush

/-- Run a sequence of writer operations, accumulating the commit trace;
commits made before a panic are kept (the hardware has already written
them when the process aborts). -/
def runOps (w : TagWriter) : List WriterOp → Commits × Except Panic TagWriter
  | [] => ([], .ok w)
  | op :: ops =>
    match runOp w op with
    | (cs, .error e) => (cs, .error e)
    | (cs, .ok w1) =>
      let r := runOps w1 ops
      (cs ++ r.1, r.2)

/-- Iterate `TagReader::read` `k` times with the same requested length,
collecting the chunks returned by each call. -/
def readIter (mem : TagMem) (r : TagReader) (len : Nat) :
    Nat → Except Panic (List (List Nat) × TagReader)
  | 0 => .ok ([], r)
  | k + 1 =>
    match r.read mem len with
    | .error e => .error e
    | .ok (bs, r1) =>
      match readIter mem r1 len k with
      | .error e => .error e
      | .ok (bss, r2) => .ok (bs :: bss, r2)

/-! ## Specification-side views of the byte stream -/

/-- The physical address of the `i`-th usable block (total on the table). -/
def addrOf (i : Nat) : Nat := DATA_BLOCKS.getD i 0

/-- The commit trace produced by streaming the byte sequence `st` through
the writer: one commit per completed 16-byte slice, in order, at the
successive table addresses. -/
def streamCommits (st : List Nat) : Commits :=
  (List.range (st.length / 16)).map
    (fun i => (addrOf i, (st.drop (16 * i)).take 16))

/-- The `st` zero-padded to the next multiple of 16 bytes. -/
def pad16 (st : List Nat) : List Nat :=
  st ++ List.replicate ((16 - st.length % 16) % 16) 0

/-- The 16 bytes of the `i`-th block of the stream `st`, reading past the
end of `st` as zero. -/
def blockBytes (st : List Nat) (i : Nat) : List Nat :=
  (List.range 16).map (fun j => st.getD (16 * i + j) 0)

/-- The invariant tying a writer state to the byte sequence `st` streamed
through it so far (without a final flush): the block index counts the
completed 16-byte slices, the staging offset is the leftover length, and
the staging buffer front holds the leftover bytes. -/
def WInv (st : List Nat) (w : TagWriter) : Prop :=
  w.current_block = st.length / 16 ∧
  w.current_pos_in_buffered_data = st.length % 16 ∧
  w.buffered_data.take (st.length % 16) = st.drop (16 * (st.length / 16)) ∧
  w.buffered_data.length = 16

/-- A simulated tag whose first usable block carries the MessagePack
encoding of the one-character string "a" (FixStr marker `0xa1`, byte 97). -/
def demoTagA : TagMem :=
  applyCommits zeroMem [(8, 0xa1 :: 97 :: List.replicate 14 0)]

/-- A simulated tag whose first usable block carries the MessagePack
encoding of the one-character string "b" (FixStr marker `0xa1`, byte 98). -/
def demoTagB : TagMem :=
  applyCommits zeroMem [(8, 0xa1 :: 98 :: List.replicate 14 0)]

/-! ## Theorems -/

/-- Mapping a value into a pair with a fixed first component: an `ok`
result determines that component. -/
theorem except_map_pair_ok {ε α β : Type} {c : β} {e : Except ε α} {n : β}
    {w : α} (h : (e.map fun x => (c, x)) = .ok (n, w)) : n = c := by
  cases e with
  | error _ => simp [Except.map] at h
  | ok a => simp [Except.map] at h; exact h.1.symm

/-- The `DATA_BLOCKS` indexing succeeds below the table length. -/
theorem DATA_BLOCKS_lookup {k : Nat} (h : k < 9) :
    DATA_BLOCKS[k]? = some (addrOf k) :=
  (by decide : ∀ k, k < 9 → DATA_BLOCKS[k]? = some (addrOf k)) k h

/-- The `DATA_BLOCKS` indexing fails from the table length on — the Rust
counterpart is the out-of-bounds slice-index panic. -/
theorem DATA_BLOCKS_lookup_none {k : Nat} (h : 9 ≤ k) :
    DATA_BLOCKS[k]? = none :=
  List.getElem?_eq_none (by simpa [DATA_BLOCKS] using h)

/-- The `chunks16` of a short non-empty slice is that single chunk. -/
theorem chunks16_small (l : List Nat) (h1 : l ≠ []) (h2 : l.length < 16) :
    chunks16 l = [l] := by
  obtain _ | ⟨b, l⟩ := l
  · exact absurd rfl h1
  iterate 15
    obtain _ | ⟨b, l⟩ := l
    · rfl
  simp only [List.length_cons] at h2
  omega

/-- The `chunks16` of a slice holding at least 16 bytes starts with the full
16-byte chunk. -/
theorem chunks16_step (l : List Nat) (h : 16 ≤ l.length) :
    chunks16 l = l.take 16 :: chunks16 (l.drop 16) := by
  iterate 16
    obtain _ | ⟨b, l⟩ := l
    · exact absurd h (by simp)
  rfl

/-- Reading a mapped range list below its length. -/
theorem getD_map_range (f : Nat → Nat) {n j : Nat} (h : j < n) :
    ((List.range n).map f).getD j 0 = f j := by
  rw [List.getD_eq_getElem?_getD, List.getElem?_map, List.getElem?_range h]
  rfl

/-- A list is the range-indexed map of its own entries. -/
theorem map_getD_range_self (l : List Nat) :
    (List.range l.length).map (fun j => l.getD j 0) = l := by
  apply List.ext_getElem (by simp)
  intro i h1 h2
  simp only [List.getElem_map, List.getElem_range]
  exact List.getD_eq_getElem l 0 h2

/-- The chunk loop of `TagWriter::write`, started with an empty staging
buffer and enough remaining capacity, commits one block per full 16-byte
chunk at the successive table addresses and stages the trailing partial
chunk. -/
theorem writeChunks_spec :
    ∀ (n : Nat) (rest : List Nat) (w : TagWriter),
      rest.length / 16 = n →
      w.current_pos_in_buffered_data = 0 →
      w.buffered_data.length = 16 →
      16 * w.current_block + rest.length ≤ 144 →
      ∃ w', w.writeChunks rest =
          ((List.range (rest.length / 16)).map
            (fun i => (addrOf (w.current_block + i),
              (rest.drop (16 * i)).take 16)), .ok w') ∧
        w'.current_block = w.current_block + rest.length / 16 ∧
        w'.current_pos_in_buffered_data = rest.length % 16 ∧
        w'.buffered_data.take (rest.length % 16) =
          rest.drop (16 * (rest.length / 16)) ∧
        w'.buffered_data.length = 16 := by
  intro n
  induction n with
  | zero =>
    intro rest w hn hp hl hcap
    by_cases h0 : rest.length = 0
    · have hrest : rest = [] := List.length_eq_zero.mp h0
      subst hrest
      exact ⟨w, by simp [TagWriter.writeChunks, chunks16, TagWriter.foldChunks],
        by simp, by simpa using hp, by simp [hp], hl⟩
    · have hlt : rest.length < 16 := by omega
      have hne : rest ≠ [] := by
        intro h; rw [h] at h0; exact h0 rfl
      have hdiv : rest.length / 16 = 0 := by omega
      have hmod : rest.length % 16 = rest.length := by omega
      refine ⟨{ w with
          buffered_data := rest ++ w.buffered_data.drop rest.length,
          current_pos_in_buffered_data :=
            w.current_pos_in_buffered_data + rest.length }, ?_, ?_, ?_, ?_, ?_⟩
      · unfold TagWriter.writeChunks
        rw [chunks16_small rest hne hlt]
        simp [TagWriter.foldChunks, if_neg (by omega : ¬ rest.length = 16), hdiv]
      · simp [hdiv]
      · simp [hp, hmod]
      · simp only [hmod, hdiv, Nat.mul_zero, List.drop_zero]
        exact List.take_left rest _
      · simp only [List.length_append, List.length_drop, hl]
        omega
  | succ n ih =>
    intro rest w hn hp hl hcap
    have h16 : 16 ≤ rest.length := by omega
    have hk : w.current_block < 9 := by omega
    have hlen16 : (rest.take 16).length = 16 := by
      simp only [List.length_take]; omega
    obtain ⟨w', hcall, hb', hp', htake', hl'⟩ :=
      ih (rest.drop 16) { w with current_block := w.current_block + 1 }
        (by simp only [List.length_drop]; omega) hp hl
        (by simp only [List.length_drop]; omega)
    refine ⟨w', ?_, ?_, ?_, ?_, hl'⟩
    · unfold TagWriter.writeChunks at hcall ⊢
      rw [chunks16_step rest h16]
      simp only [TagWriter.foldChunks, hlen16, if_pos, DATA_BLOCKS_lookup hk]
      rw [hcall]
      refine Prod.ext ?_ rfl
      simp only
      have hd : (rest.drop 16).length / 16 = n := by
        simp only [List.length_drop]; omega
      have hd1 : rest.length / 16 = n + 1 := hn
      rw [hd, hd1, List.range_succ_eq_map, List.map_cons, List.map_map]
      congr 1
      simp
      intro a ha
      refine ⟨congrArg addrOf (by omega), ?_⟩
      have e2 : 16 + 16 * a = 16 * (a + 1) := by omega
      rw [e2]
    · rw [hb']
      simp only [List.length_drop]
      omega
    · rw [hp']
      simp only [List.length_drop]
      omega
    · rw [List.length_drop, List.drop_drop] at htake'
      have e3 : (rest.length - 16) % 16 = rest.length % 16 := by omega
      have e4 : 16 + 16 * ((rest.length - 16) / 16) =
          16 * (rest.length / 16) := by omega
      rw [e3, e4] at htake'
      exact htake'

/-- A 16-byte slice lying inside `st` is unaffected by appending. -/
theorem slice_append_left (st ext : List Nat) {i : Nat}
    (h : 16 * i + 16 ≤ st.length) :
    ((st ++ ext).drop (16 * i)).take 16 = (st.drop (16 * i)).take 16 := by
  rw [List.drop_append_of_le_length (by omega)]
  rw [List.take_append_of_le_length (by simp only [List.length_drop]; omega)]

/-- Extending a block-aligned stream: the commits are those of the prefix
followed by those of the extension, shifted by the prefix's blocks. -/
theorem streamCommits_append (st ext : List Nat) (hq : st.length % 16 = 0) :
    streamCommits (st ++ ext) = streamCommits st ++
      (List.range (ext.length / 16)).map
        (fun i => (addrOf (st.length / 16 + i), (ext.drop (16 * i)).take 16)) := by
  unfold streamCommits
  have hlen : (st ++ ext).length / 16 = st.length / 16 + ext.length / 16 := by
    simp only [List.length_append]; omega
  rw [hlen, List.range_add, List.map_append, List.map_map]
  congr 1
  · apply List.map_congr_left
    intro i hi
    rw [List.mem_range] at hi
    rw [slice_append_left st ext (by omega)]
  · apply List.map_congr_left
    intro i hi
    simp only [Function.comp_apply]
    have e : 16 * (st.length / 16 + i) = st.length + 16 * i := by omega
    rw [e, List.drop_append]

/-- Extending a stream without completing its current block leaves the
commit list unchanged. -/
theorem streamCommits_extend_short (st ext : List Nat)
    (h : st.length % 16 + ext.length < 16) :
    streamCommits (st ++ ext) = streamCommits st := by
  unfold streamCommits
  have hlen : (st ++ ext).length / 16 = st.length / 16 := by
    simp only [List.length_append]; omega
  rw [hlen]
  apply List.map_congr_left
  intro i hi
  rw [List.mem_range] at hi
  rw [slice_append_left st ext (by omega)]

/-- Extending a stream by exactly enough bytes to complete its current
block adds exactly one commit: the completed block. -/
theorem streamCommits_complete (st ext : List Nat) (hq : st.length % 16 ≠ 0)
    (hfull : st.length % 16 + ext.length = 16) :
    streamCommits (st ++ ext) = streamCommits st ++
      [(addrOf (st.length / 16), st.drop (16 * (st.length / 16)) ++ ext)] := by
  unfold streamCommits
  have hlen : (st ++ ext).length / 16 = st.length / 16 + 1 := by
    simp only [List.length_append]; omega
  rw [hlen, List.range_succ, List.map_append]
  congr 1
  · apply List.map_congr_left
    intro i hi
    rw [List.mem_range] at hi
    rw [slice_append_left st ext (by omega)]
  · simp only [List.map_cons, List.map_nil, List.cons.injEq, and_true]
    rw [List.drop_append_of_le_length (by omega)]
    have hlen2 : (st.drop (16 * (st.length / 16)) ++ ext).length = 16 := by
      simp only [List.length_append, List.length_drop]; omega
    rw [List.take_of_length_le (le_of_eq hlen2)]

/-- A single `TagWriter::write` call on a writer that has streamed `st` so
far, within capacity: it succeeds reporting the full input length, commits
exactly the blocks completed by the new bytes, and maintains the stream
invariant for `st ++ buf`. -/
theorem write_spec (st : List Nat) (w : TagWriter) (buf : List Nat)
    (h : WInv st w) (hcap : st.length + buf.length ≤ 144) :
    ∃ w' δ, w.write buf = (δ, .ok (buf.length, w')) ∧ WInv (st ++ buf) w' ∧
      streamCommits st ++ δ = streamCommits (st ++ buf) := by
  obtain ⟨hb, hp, ht, hl⟩ := h
  by_cases hq : st.length % 16 = 0
  · -- the staging buffer is empty: the whole input goes to the chunk loop
    have hp0 : w.current_pos_in_buffered_data = 0 := by rw [hp, hq]
    obtain ⟨w', hcall, hb', hp', ht', hl'⟩ :=
      writeChunks_spec (buf.length / 16) buf w rfl hp0 hl
        (by rw [hb]; omega)
    rw [hb] at hcall
    refine ⟨w', (List.range (buf.length / 16)).map
      (fun i => (addrOf (st.length / 16 + i), (buf.drop (16 * i)).take 16)),
      ?_, ⟨?_, ?_, ?_, hl'⟩, ?_⟩
    · unfold TagWriter.write
      rw [if_neg (by omega)]
      simp only [hcall, Except.map]
    · rw [hb', hb]
      simp only [List.length_append]
      omega
    · rw [hp']
      simp only [List.length_append]
      omega
    · simp only [List.length_append]
      have e1 : (st.length + buf.length) % 16 = buf.length % 16 := by omega
      have e2 : 16 * ((st.length + buf.length) / 16) =
          st.length + 16 * (buf.length / 16) := by omega
      rw [e1, e2, List.drop_append, ht']
    · rw [streamCommits_append st buf hq]
  · -- the staging buffer holds partial data
    have hq1 : 1 ≤ st.length % 16 := by omega
    have hq15 : st.length % 16 < 16 := Nat.mod_lt _ (by norm_num)
    have hppos : 0 < w.current_pos_in_buffered_data := by omega
    by_cases hsmall : buf.length < 16 - st.length % 16
    · -- the input is fully absorbed into the buffer (early return)
      have hmin : min buf.length (16 - w.current_pos_in_buffered_data) =
          buf.length := by rw [hp]; omega
      refine ⟨{ w with
          buffered_data :=
            w.buffered_data.take w.current_pos_in_buffered_data ++ buf ++
              w.buffered_data.drop
                (w.current_pos_in_buffered_data + buf.length),
          current_pos_in_buffered_data :=
            w.current_pos_in_buffered_data + buf.length }, [],
        ?_, ⟨?_, ?_, ?_, ?_⟩, ?_⟩
      · unfold TagWriter.write
        rw [if_pos hppos]
        simp only [hmin, List.take_length]
        have hcond : ¬(w.current_pos_in_buffered_data + buf.length = 16) := by
          rw [hp]
          omega
        rw [if_neg hcond]
      · rw [hb]
        simp only [List.length_append]
        omega
      · rw [hp]
        simp only [List.length_append]
        omega
      · simp only [List.length_append]
        have e1 : (st.length + buf.length) % 16 =
            st.length % 16 + buf.length := by omega
        have e2 : 16 * ((st.length + buf.length) / 16) =
            16 * (st.length / 16) := by omega
        rw [e1, e2]
        rw [List.drop_append_of_le_length (by omega)]
        rw [← hp]
        rw [List.take_left' (by
          simp only [List.length_append, List.length_take, hl]
          rw [hp]
          omega)]
        rw [← ht, hp]
      · simp only [List.length_append, List.length_take, List.length_drop, hl]
        rw [hp]
        omega
      · rw [List.append_nil]
        exact (streamCommits_extend_short st buf (by omega)).symm
    · -- the buffer is topped up to 16 bytes, flushed, and the remainder
      -- goes through the chunk loop
      have hmin : min buf.length (16 - w.current_pos_in_buffered_data) =
          16 - w.current_pos_in_buffered_data := by rw [hp]; omega
      have hk : w.current_block < 9 := by rw [hb]; omega
      have hpos16 : w.current_pos_in_buffered_data +
          (16 - w.current_pos_in_buffered_data) = 16 := by rw [hp]; omega
      obtain ⟨w', hcall, hb', hp', ht', hl'⟩ :=
        writeChunks_spec ((buf.drop (16 - w.current_pos_in_buffered_data)).length / 16)
          (buf.drop (16 - w.current_pos_in_buffered_data))
          { current_block := w.current_block + 1,
            buffered_data := List.replicate 16 0,
            current_pos_in_buffered_data := 0 }
          rfl rfl (by simp)
          (by simp only [List.length_drop, hp]; rw [hb]; omega)
      refine ⟨w', (addrOf w.current_block,
          w.buffered_data.take w.current_pos_in_buffered_data ++
            buf.take (16 - w.current_pos_in_buffered_data)) ::
          (List.range ((buf.drop (16 - w.current_pos_in_buffered_data)).length / 16)).map
            (fun i => (addrOf (w.current_block + 1 + i),
              ((buf.drop (16 - w.current_pos_in_buffered_data)).drop (16 * i)).take 16)),
        ?_, ⟨?_, ?_, ?_, hl'⟩, ?_⟩
      · unfold TagWriter.write
        rw [if_pos hppos]
        simp only [hmin]
        rw [if_pos hpos16]
        unfold TagWriter.flush
        rw [if_pos (by simp only; omega)]
        simp only [hpos16]
        rw [DATA_BLOCKS_lookup hk]
        simp only [Nat.sub_self, List.replicate_zero, List.append_nil]
        have hdrop16 : w.buffered_data.drop 16 = [] :=
          List.drop_eq_nil_of_le (le_of_eq hl)
        rw [hdrop16, List.append_nil]
        have htake16 : (w.buffered_data.take w.current_pos_in_buffered_data ++
            buf.take (16 - w.current_pos_in_buffered_data)).take 16 =
            w.buffered_data.take w.current_pos_in_buffered_data ++
            buf.take (16 - w.current_pos_in_buffered_data) := by
          apply List.take_of_length_le
          simp only [List.length_append, List.length_take, hl]
          rw [hp]
          omega
        rw [htake16, hcall]
        simp only [Except.map, List.singleton_append]
      · rw [hb']
        simp only [List.length_append, List.length_drop]
        rw [hb, hp]
        omega
      · rw [hp']
        simp only [List.length_append, List.length_drop]
        rw [hp]
        omega
      · have hmod : (st ++ buf).length % 16 =
            (buf.drop (16 - w.current_pos_in_buffered_data)).length % 16 := by
          simp only [List.length_append, List.length_drop]
          rw [hp]
          omega
        have hdropeq : (st ++ buf).drop (16 * ((st ++ buf).length / 16)) =
            (buf.drop (16 - w.current_pos_in_buffered_data)).drop
              (16 * ((buf.drop
                (16 - w.current_pos_in_buffered_data)).length / 16)) := by
          rw [List.drop_drop]
          have e : 16 * ((st ++ buf).length / 16) =
              st.length + (16 - w.current_pos_in_buffered_data +
                16 * ((buf.drop
                  (16 - w.current_pos_in_buffered_data)).length / 16)) := by
            simp only [List.length_append, List.length_drop]
            rw [hp]
            omega
          rw [e, List.drop_append]
        rw [hmod, hdropeq, ht']
      · have hsb : st ++ buf =
            (st ++ buf.take (16 - w.current_pos_in_buffered_data)) ++
              buf.drop (16 - w.current_pos_in_buffered_data) := by
          rw [List.append_assoc, List.take_append_drop]
        rw [hsb]
        rw [streamCommits_append _ _ (by
          simp only [List.length_append, List.length_take]
          rw [hp]
          omega)]
        rw [streamCommits_complete st _ hq (by
          simp only [List.length_take]
          rw [hp]
          omega)]
        have e : (st ++ buf.take
            (16 - w.current_pos_in_buffered_data)).length / 16 =
            w.current_block + 1 := by
          simp only [List.length_append, List.length_take]
          rw [hp, hb]
          omega
        simp only [e]
        rw [hp, ht, hb]
        simp

/-- The `TagWriter::flush` on a writer that has streamed `st`, within
capacity: it pads and commits the staged leftover (if any), completing the
commit trace of the zero-padded stream. -/
theorem flush_spec (st : List Nat) (w : TagWriter) (h : WInv st w)
    (hcap : st.length ≤ 144) :
    ∃ w' δ, w.flush = (δ, .ok w') ∧
      streamCommits st ++ δ = streamCommits (pad16 st) := by
  obtain ⟨hb, hp, ht, hl⟩ := h
  by_cases hq : st.length % 16 = 0
  · refine ⟨w, [], ?_, ?_⟩
    · unfold TagWriter.flush
      rw [if_neg (by rw [hp, hq]; omega)]
    · rw [List.append_nil]
      unfold pad16
      rw [hq]
      simp
  · have hq15 : st.length % 16 < 16 := Nat.mod_lt _ (by norm_num)
    have hk : w.current_block < 9 := by rw [hb]; omega
    refine ⟨(⟨w.current_block + 1, List.replicate 16 0, 0⟩ : TagWriter),
      [(addrOf w.current_block, st.drop (16 * (st.length / 16)) ++
        List.replicate (16 - st.length % 16) 0)], ?_, ?_⟩
    · unfold TagWriter.flush
      rw [if_pos (by rw [hp]; omega)]
      rw [DATA_BLOCKS_lookup hk]
      simp only [hp, ht]
    · unfold pad16
      have e : (16 - st.length % 16) % 16 = 16 - st.length % 16 := by omega
      rw [e]
      rw [streamCommits_complete st _ hq (by
        simp only [List.length_replicate]; omega)]
      rw [hb]

/-- The `write_all_loop` on an exhausted slice is complete at any fuel. -/
theorem write_all_loop_nil (w : TagWriter) (f : Nat) :
    write_all_loop w [] f = ([], .ok w) := by
  cases f <;> rfl

/-- The `write_all` behaves like a single successful `write` (the embedded
`write` never reports a short write), with the same stream invariant. -/
theorem write_all_spec (st : List Nat) (w : TagWriter) (buf : List Nat)
    (h : WInv st w) (hcap : st.length + buf.length ≤ 144) :
    ∃ w' δ, write_all w buf = (δ, .ok w') ∧ WInv (st ++ buf) w' ∧
      streamCommits st ++ δ = streamCommits (st ++ buf) := by
  by_cases h0 : buf.length = 0
  · have hbuf : buf = [] := List.length_eq_zero.mp h0
    subst hbuf
    exact ⟨w, [], rfl, by simpa using h, by simp⟩
  · obtain ⟨m, hm⟩ : ∃ m, buf.length = m + 1 := ⟨buf.length - 1, by omega⟩
    obtain ⟨w', δ, hw, hinv, hsc⟩ := write_spec st w buf h hcap
    refine ⟨w', δ, ?_, hinv, hsc⟩
    unfold write_all
    rw [hm]
    simp only [write_all_loop]
    rw [if_neg h0, hw]
    simp only [if_neg h0]
    rw [List.drop_length, write_all_loop_nil]
    simp

/-- The `rmp::encode::write_str_len` for a length below 256 appends exactly
the header bytes `strHeader` to the stream. -/
theorem write_str_len_spec (st : List Nat) (w : TagWriter) (n : Nat)
    (h : WInv st w) (hn : n < 256)
    (hcap : st.length + (strHeader n).length ≤ 144) :
    ∃ w' δ, write_str_len w n = (δ, .ok w') ∧ WInv (st ++ strHeader n) w' ∧
      streamCommits st ++ δ = streamCommits (st ++ strHeader n) := by
  by_cases h32 : n < 32
  · have hh : strHeader n = [0xa0 + n] := by unfold strHeader; rw [if_pos h32]
    rw [hh] at hcap ⊢
    obtain ⟨w', δ, hw, hinv, hsc⟩ := write_all_spec st w [0xa0 + n] h hcap
    exact ⟨w', δ, by unfold write_str_len; rw [if_pos h32]; exact hw,
      hinv, hsc⟩
  · have hh : strHeader n = [0xd9, n] := by
      unfold strHeader; rw [if_neg h32, if_pos hn]
    rw [hh] at hcap ⊢
    have hc1 : st.length + ([0xd9] : List Nat).length ≤ 144 := by
      simp only [List.length_cons, List.length_nil] at hcap ⊢
      omega
    obtain ⟨w1, δ1, hw1, hinv1, hsc1⟩ := write_all_spec st w [0xd9] h hc1
    have hc2 : (st ++ [0xd9]).length + ([n] : List Nat).length ≤ 144 := by
      simp only [List.length_append, List.length_cons, List.length_nil]
        at hcap ⊢
      omega
    obtain ⟨w2, δ2, hw2, hinv2, hsc2⟩ :=
      write_all_spec (st ++ [0xd9]) w1 [n] hinv1 hc2
    have e : st ++ [0xd9, n] = (st ++ [0xd9]) ++ [n] := by simp
    refine ⟨w2, δ1 ++ δ2, ?_, ?_, ?_⟩
    · unfold write_str_len
      rw [if_neg h32, if_pos hn]
      simp only [hw1, hw2]
    · rw [e]
      exact hinv2
    · rw [e, ← hsc2, ← hsc1, List.append_assoc]

/-- The `TagWriter::write_string` on a fresh writer, for a string whose framed
encoding fits the 144-byte capacity: it succeeds and its commit trace is
exactly the commits of the zero-padded framed stream. -/
theorem write_string_spec (s : List Nat)
    (hcap : (strHeader s.length ++ s).length ≤ 144) :
    ∃ w', write_string freshWriter s =
      (streamCommits (pad16 (strHeader s.length ++ s)), .ok w') := by
  have hinv0 : WInv [] freshWriter :=
    ⟨by simp [freshWriter], by simp [freshWriter], by simp [freshWriter],
      by simp [freshWriter]⟩
  have hn : s.length < 256 := by
    unfold strHeader at hcap
    split_ifs at hcap with h1 h2 h3 <;>
      simp only [List.length_append, List.length_cons, List.length_nil]
        at hcap <;>
      omega
  have hc1 : ([] : List Nat).length + (strHeader s.length).length ≤ 144 := by
    simp only [List.length_append] at hcap
    simp only [List.length_nil]
    omega
  obtain ⟨w1, δ1, hw1, hinv1, hsc1⟩ :=
    write_str_len_spec [] freshWriter s.length hinv0 hn hc1
  have hc2 : ([] ++ strHeader s.length).length + s.length ≤ 144 := by
    simpa using hcap
  obtain ⟨w2, δ2, hw2, hinv2, hsc2⟩ :=
    write_all_spec ([] ++ strHeader s.length) w1 s hinv1 hc2
  have hc3 : (([] ++ strHeader s.length) ++ s).length ≤ 144 := by
    simpa using hcap
  obtain ⟨w3, δ3, hw3, hsc3⟩ :=
    flush_spec (([] ++ strHeader s.length) ++ s) w2 hinv2 hc3
  refine ⟨w3, ?_⟩
  unfold write_string
  simp only [hw1, hw2, hw3]
  have h1 : δ1 = streamCommits (strHeader s.length) := by
    simpa [streamCommits] using hsc1
  have h2 : streamCommits (strHeader s.length) ++ δ2 =
      streamCommits (strHeader s.length ++ s) := by
    simpa using hsc2
  have h3 : streamCommits (strHeader s.length ++ s) ++ δ3 =
      streamCommits (pad16 (strHeader s.length ++ s)) := by
    simpa using hsc3
  rw [h1, h2, h3]

/-- The block-address table is injective on its 9 indices. -/
theorem addrOf_inj {i j : Nat} (hi : i < 9) (hj : j < 9)
    (h : addrOf i = addrOf j) : i = j :=
  (by decide : ∀ i, i < 9 → ∀ j, j < 9 → addrOf i = addrOf j → i = j)
    i hi j hj h

/-- Applying commits at the successive table addresses: the memory at a
table address holds the committed block if one was committed there, and is
untouched otherwise. -/
theorem applyCommits_range (mem : TagMem) (k : Nat) (f : Nat → List Nat)
    (hk : k ≤ 9) {i : Nat} (hi : i < 9) :
    applyCommits mem
        ((List.range k).map (fun j => (addrOf j, f j))) (addrOf i) =
      if i < k then f i else mem (addrOf i) := by
  induction k generalizing mem with
  | zero => simp [applyCommits]
  | succ k ih =>
    rw [List.range_succ, List.map_append]
    unfold applyCommits
    rw [List.foldl_append]
    simp only [List.map_cons, List.map_nil, List.foldl_cons, List.foldl_nil]
    by_cases he : i = k
    · subst he
      simp
    · have hne : addrOf i ≠ addrOf k := fun hcontra =>
        he (addrOf_inj hi (by omega) hcontra)
      rw [if_neg hne]
      have ihk := ih mem (by omega)
      unfold applyCommits at ihk
      rw [ihk]
      by_cases hik : i < k
      · rw [if_pos hik, if_pos (by omega)]
      · rw [if_neg hik, if_neg (by omega)]

/-- A full in-range 16-byte slice of the stream, as `blockBytes`. -/
theorem take_drop_eq_blockBytes (st : List Nat) {i : Nat}
    (h : 16 * i + 16 ≤ st.length) :
    (st.drop (16 * i)).take 16 = blockBytes st i := by
  unfold blockBytes
  apply List.ext_getElem
  · simp only [List.length_take, List.length_drop, List.length_map,
      List.length_range]
    omega
  · intro n h1 h2
    simp only [List.length_take, List.length_drop] at h1
    rw [List.getElem_take, List.getElem_drop]
    simp only [List.getElem_map, List.getElem_range]
    rw [List.getD_eq_getElem st 0 (by omega)]

/-- Blocks past the end of the stream read as zeros. -/
theorem blockBytes_past (st : List Nat) {i : Nat} (h : st.length ≤ 16 * i) :
    blockBytes st i = List.replicate 16 0 := by
  unfold blockBytes
  apply List.ext_getElem
  · simp
  · intro n h1 h2
    simp only [List.getElem_map, List.getElem_range, List.getElem_replicate]
    rw [List.getD_eq_getElem?_getD, List.getElem?_eq_none (by omega)]
    rfl

/-- The memory of a blank tag after committing a block-aligned stream:
every usable block holds its `blockBytes` slice (blocks past the stream
end read as zeros either way). -/
theorem applyCommits_streamCommits (st : List Nat) (hlen : st.length ≤ 144)
    (hmod : st.length % 16 = 0) {i : Nat} (hi : i < 9) :
    applyCommits zeroMem (streamCommits st) (addrOf i) = blockBytes st i := by
  unfold streamCommits
  rw [applyCommits_range zeroMem (st.length / 16) _ (by omega) hi]
  by_cases hik : i < st.length / 16
  · rw [if_pos hik]
    exact take_drop_eq_blockBytes st (by omega)
  · rw [if_neg hik]
    unfold zeroMem
    exact (blockBytes_past st (by omega)).symm

/-- Zero-padding aligns the stream length to 16. -/
theorem pad16_mod (st : List Nat) : (pad16 st).length % 16 = 0 := by
  simp only [pad16, List.length_append, List.length_replicate]
  omega

/-- Zero-padding a stream that fits the tag still fits the tag. -/
theorem pad16_length (st : List Nat) (h : st.length ≤ 144) :
    (pad16 st).length ≤ 144 := by
  simp only [pad16, List.length_append, List.length_replicate]
  omega

/-- Reading the padded stream byte-wise is reading the stream byte-wise:
the padding and the out-of-range default agree. -/
theorem pad16_getD (st : List Nat) (j : Nat) :
    (pad16 st).getD j 0 = st.getD j 0 := by
  unfold pad16
  by_cases h : j < st.length
  · exact List.getD_append _ _ _ _ h
  · rw [List.getD_append_right _ _ _ _ (by omega)]
    rw [List.getD_eq_getElem?_getD, List.getElem?_replicate]
    rw [List.getD_eq_getElem?_getD st, List.getElem?_eq_none (by omega)]
    split <;> rfl

/-- A within-block slice of `blockBytes` in stream-index form. -/
theorem blockBytes_slice (st : List Nat) (i q c : Nat) (hq : q + c ≤ 16) :
    ((blockBytes st i).drop q).take c =
      (List.range c).map (fun j => st.getD (16 * i + q + j) 0) := by
  apply List.ext_getElem
  · simp only [List.length_take, List.length_drop, List.length_map,
      List.length_range, blockBytes]
    omega
  · intro n h1 h2
    simp only [List.length_take, List.length_drop, List.length_map,
      List.length_range, blockBytes] at h1
    rw [List.getElem_take, List.getElem_drop]
    simp only [blockBytes, List.getElem_map, List.getElem_range]
    congr 1
    omega

/-- A single `TagReader::read` with a non-empty destination, on a tag
holding the stream `st`: it returns the next `min(requested, 16 - offset)`
stream bytes and moves the cursor forward by that amount. -/
theorem read_spec (mem : TagMem) (st : List Nat)
    (hm : ∀ i, i < 9 → mem (addrOf i) = blockBytes st i)
    (p len : Nat) (hp : p < 144) (hlen : 0 < len) :
    TagReader.read ⟨p / 16, p % 16⟩ mem len =
      .ok ((List.range (min len (16 - p % 16))).map
          (fun j => st.getD (p + j) 0),
        ⟨(p + min len (16 - p % 16)) / 16,
          (p + min len (16 - p % 16)) % 16⟩) := by
  have hb9 : p / 16 < 9 := by omega
  have hq16 : p % 16 < 16 := Nat.mod_lt _ (by norm_num)
  unfold TagReader.read
  rw [if_neg (by simp only [N_BLOCKS]; omega)]
  simp only [DATA_BLOCKS_lookup hb9, hm (p / 16) hb9]
  rw [blockBytes_slice st (p / 16) (p % 16) (min len (16 - p % 16))
    (by omega)]
  have e3 : (if (p % 16 + min len (16 - p % 16)) % 16 = 0
      then p / 16 + 1 else p / 16) = (p + min len (16 - p % 16)) / 16 := by
    split <;> omega
  have e2 : (p % 16 + min len (16 - p % 16)) % 16 =
      (p + min len (16 - p % 16)) % 16 := by omega
  rw [e3, e2]
  refine congrArg Except.ok (Prod.ext ?_ rfl)
  apply List.map_congr_left
  intro j _
  congr 1
  omega

/-- Concatenating two adjacent byte-wise reads of the stream. -/
theorem map_getD_range_append (st : List Nat) (p c d : Nat) :
    (List.range c).map (fun j => st.getD (p + j) 0) ++
      (List.range d).map (fun j => st.getD (p + c + j) 0) =
    (List.range (c + d)).map (fun j => st.getD (p + j) 0) := by
  rw [List.range_add, List.map_append, List.map_map]
  congr 1
  apply List.map_congr_left
  intro j _
  simp only [Function.comp_apply]
  congr 1
  omega

/-- The `read_exact` loop, with sufficient fuel, reads exactly the next
`n` stream bytes and leaves the cursor `n` bytes further. -/
theorem read_exact_loop_spec :
    ∀ (fuel : Nat) (mem : TagMem) (st : List Nat),
      (∀ i, i < 9 → mem (addrOf i) = blockBytes st i) →
      ∀ (p n : Nat), n ≤ fuel → p + n ≤ 144 →
      read_exact_loop mem ⟨p / 16, p % 16⟩ n fuel =
        .ok ((List.range n).map (fun j => st.getD (p + j) 0),
          ⟨(p + n) / 16, (p + n) % 16⟩) := by
  intro fuel
  induction fuel with
  | zero =>
    intro mem st hm p n hn hpn
    have h0 : n = 0 := by omega
    subst h0
    simp [read_exact_loop]
  | succ fuel ih =>
    intro mem st hm p n hn hpn
    by_cases hn0 : n = 0
    · subst hn0
      simp [read_exact_loop]
    · have hlen : 0 < n := by omega
      have hq16 : p % 16 < 16 := Nat.mod_lt _ (by norm_num)
      have hcpos : 0 < min n (16 - p % 16) := by omega
      simp only [read_exact_loop]
      rw [if_neg hn0]
      rw [read_spec mem st hm p n (by omega) hlen]
      simp only [List.length_map, List.length_range]
      rw [if_neg (by omega)]
      simp only [ih mem st hm (p + min n (16 - p % 16))
        (n - min n (16 - p % 16)) (by omega) (by omega)]
      rw [map_getD_range_append]
      have e4 : min n (16 - p % 16) + (n - min n (16 - p % 16)) = n := by
        omega
      have e5 : p + min n (16 - p % 16) + (n - min n (16 - p % 16)) =
          p + n := by omega
      rw [e4, e5]

/-- The `std::io::Read::read_exact` on a `TagReader` positioned `p` bytes into
a tag holding the stream `st`: it reads the next `n` stream bytes. -/
theorem readExact_spec (mem : TagMem) (st : List Nat)
    (hm : ∀ i, i < 9 → mem (addrOf i) = blockBytes st i)
    (p n : Nat) (hpn : p + n ≤ 144) :
    readExact mem ⟨p / 16, p % 16⟩ n =
      .ok ((List.range n).map (fun j => st.getD (p + j) 0),
        ⟨(p + n) / 16, (p + n) % 16⟩) :=
  read_exact_loop_spec n mem st hm p n le_rfl hpn

/-- The fresh reader in explicit form. -/
theorem freshReader_eq : freshReader = (⟨0, 0⟩ : TagReader) := rfl

/-- The framing header is never empty. -/
theorem strHeader_ne_nil (n : Nat) : 0 < (strHeader n).length := by
  unfold strHeader
  split_ifs <;> simp

/-- The `TagReader::read_string` on a tag holding the zero-padded MessagePack
framing of the byte string `s` (with framed encoding within the 144-byte
capacity) returns exactly `s`. -/
theorem read_string_of_framed (s : List Nat) (mem : TagMem)
    (hm : ∀ i, i < 9 →
      mem (addrOf i) = blockBytes (pad16 (strHeader s.length ++ s)) i)
    (hlen : (strHeader s.length ++ s).length ≤ 144)
    (hutf : isValidUtf8 s = true) :
    read_string mem = .ok s := by
  have hgd : ∀ j, (pad16 (strHeader s.length ++ s)).getD j 0 =
      (strHeader s.length ++ s).getD j 0 := fun j => pad16_getD _ j
  by_cases h32 : s.length < 32
  · -- FixStr framing: one header byte 0xa0 + len
    have hh : strHeader s.length = [0xa0 + s.length] := by
      unfold strHeader
      rw [if_pos h32]
    have hslen : 1 + s.length ≤ 144 := by
      rw [hh] at hlen
      simp only [List.length_append, List.length_cons, List.length_nil]
        at hlen
      omega
    have hb0 : (pad16 (strHeader s.length ++ s)).getD 0 0 =
        0xa0 + s.length := by
      rw [hgd 0, List.getD_append _ _ _ _ (strHeader_ne_nil s.length), hh]
      rfl
    have hpay : ∀ j, (pad16 (strHeader s.length ++ s)).getD (1 + j) 0 =
        s.getD j 0 := by
      intro j
      rw [hgd (1 + j), hh]
      rw [List.getD_append_right _ _ _ _ (by simp)]
      simp
    have h1 : readExact mem (⟨0, 0⟩ : TagReader) 1 =
        .ok ([(pad16 (strHeader s.length ++ s)).getD 0 0], ⟨0, 1⟩) :=
      readExact_spec mem _ hm 0 1 (by omega)
    have h2 : readExact mem (⟨0, 1⟩ : TagReader) s.length =
        .ok ((List.range s.length).map
            (fun j => (pad16 (strHeader s.length ++ s)).getD (1 + j) 0),
          ⟨(1 + s.length) / 16, (1 + s.length) % 16⟩) :=
      readExact_spec mem _ hm 1 s.length (by omega)
    have hmap : (List.range s.length).map
        (fun j => (pad16 (strHeader s.length ++ s)).getD (1 + j) 0) = s := by
      rw [List.map_congr_left (fun j _ => hpay j)]
      exact map_getD_range_self s
    unfold read_string read_str_len
    rw [freshReader_eq]
    simp only [h1, List.headD_cons, hb0]
    rw [if_pos ⟨by omega, by omega⟩]
    have e : 0xa0 + s.length - 0xa0 = s.length := by omega
    simp only [e]
    rw [if_neg (by omega)]
    simp only [h2, hmap]
    rw [if_pos hutf]
  · -- Str8 framing: marker 0xd9 followed by the length byte
    have hn256 : s.length < 256 := by
      unfold strHeader at hlen
      split_ifs at hlen <;>
        simp only [List.length_append, List.length_cons, List.length_nil]
          at hlen <;>
        omega
    have hh : strHeader s.length = [0xd9, s.length] := by
      unfold strHeader
      rw [if_neg h32, if_pos hn256]
    have hslen : 2 + s.length ≤ 144 := by
      rw [hh] at hlen
      simp only [List.length_append, List.length_cons, List.length_nil]
        at hlen
      omega
    have hb0 : (pad16 (strHeader s.length ++ s)).getD 0 0 = 0xd9 := by
      rw [hgd 0, List.getD_append _ _ _ _ (strHeader_ne_nil s.length), hh]
      rfl
    have hb1 : (pad16 (strHeader s.length ++ s)).getD 1 0 = s.length := by
      rw [hgd 1, List.getD_append _ _ _ _ (by rw [hh]; norm_num), hh]
      rfl
    have hpay : ∀ j, (pad16 (strHeader s.length ++ s)).getD (2 + j) 0 =
        s.getD j 0 := by
      intro j
      rw [hgd (2 + j), hh]
      rw [List.getD_append_right _ _ _ _ (by simp)]
      simp
    have h1 : readExact mem (⟨0, 0⟩ : TagReader) 1 =
        .ok ([(pad16 (strHeader s.length ++ s)).getD 0 0], ⟨0, 1⟩) :=
      readExact_spec mem _ hm 0 1 (by omega)
    have h2 : readExact mem (⟨0, 1⟩ : TagReader) 1 =
        .ok ([(pad16 (strHeader s.length ++ s)).getD 1 0], ⟨0, 2⟩) :=
      readExact_spec mem _ hm 1 1 (by omega)
    have h3 : readExact mem (⟨0, 2⟩ : TagReader) s.length =
        .ok ((List.range s.length).map
            (fun j => (pad16 (strHeader s.length ++ s)).getD (2 + j) 0),
          ⟨(2 + s.length) / 16, (2 + s.length) % 16⟩) :=
      readExact_spec mem _ hm 2 s.length (by omega)
    have hmap : (List.range s.length).map
        (fun j => (pad16 (strHeader s.length ++ s)).getD (2 + j) 0) = s := by
      rw [List.map_congr_left (fun j _ => hpay j)]
      exact map_getD_range_self s
    unfold read_string read_str_len
    rw [freshReader_eq]
    simp only [h1, List.headD_cons, hb0]
    rw [if_neg (by omega)]
    rw [if_pos trivial]
    simp only [h2, List.headD_cons, hb1]
    rw [if_neg (by omega)]
    simp only [h3, hmap]
    rw [if_pos hutf]

/-- C1: for every UTF-8 string `s` (given by its byte sequence) whose
length-prefixed framed encoding is at most 144 bytes, writing `s` with
`TagWriter::write_string` on a fresh writer over a simulated blank 9-block
tag and then reading with `TagReader::read_string` from a fresh reader
over the resulting tag returns exactly `s`. -/
theorem roundtrip_write_read (s : List Nat)
    (hlen : (strHeader s.length ++ s).length ≤ 144)
    (hutf : isValidUtf8 s = true) :
    ∃ w cs, write_string freshWriter s = (cs, .ok w) ∧
      read_string (applyCommits zeroMem cs) = .ok s := by
  obtain ⟨w', hw⟩ := write_string_spec s hlen
  refine ⟨w', streamCommits (pad16 (strHeader s.length ++ s)), hw, ?_⟩
  apply read_string_of_framed s _ _ hlen hutf
  intro i hi
  exact applyCommits_streamCommits _ (pad16_length _ hlen) (pad16_mod _) hi

/-- Witness for C1 at the concrete string "hello" (spec §8's scenario). -/
theorem roundtrip_write_read_witness :
    ∃ w cs,
      write_string freshWriter [104, 101, 108, 108, 111] = (cs, .ok w) ∧
        read_string (applyCommits zeroMem cs) =
          .ok [104, 101, 108, 108, 111] :=
  roundtrip_write_read [104, 101, 108, 108, 111] (by decide) (by decide)

/-- C3: over the poll-outcome sequence
[no-tag, tag A, tag A, tag A, no-tag, tag B] from the no-tag state, with
both decodes succeeding, the watcher sends exactly
[presence(decode A), absence, presence(decode B)]: content is decoded
once per distinct appearance, repeated polls of the same identifier send
nothing. -/
theorem watcher_edge_triggered {α : Type} (deser : List Nat → Except Panic α)
    (a b : Nat) (memA memB : TagMem) (sa sb : List Nat) (ra rb : α)
    (hA : read_string memA = .ok sa) (hdA : deser sa = .ok ra)
    (hB : read_string memB = .ok sb) (hdB : deser sb = .ok rb) :
    watcherRun deser none
        [.pnone, .ptag a memA, .ptag a memA, .ptag a memA, .pnone,
          .ptag b memB] =
      .ok (some b, [some ra, none, some rb]) := by
  simp [watcherRun, watcherStep, hA, hdA, hB, hdB]

/-- Witness for C3 at two concrete one-character tags. -/
theorem watcher_edge_triggered_witness :
    watcherRun
        (fun s : List Nat => (Except.ok s : Except Panic (List Nat))) none
        [.pnone, .ptag 0 demoTagA, .ptag 0 demoTagA, .ptag 0 demoTagA,
          .pnone, .ptag 1 demoTagB] =
      .ok (some 1, [some [97], none, some [98]]) :=
  watcher_edge_triggered _ 0 1 demoTagA demoTagB [97] [98] [97] [98]
    (by decide) rfl (by decide) rfl

/-- C5 counterexample: a poll in the no-tag state finding a tag (uid 0)
whose content (all zero bytes: marker 0x00 is no string marker) fails to
decode does NOT leave the watcher in the no-tag state with the error
reported: `read_string` unwraps the decode error (rfid.rs line 247), so
the iteration panics and the loop aborts; the claimed outcome
`Ok(no-tag state, no events)` does not hold. -/
theorem watcher_decode_failure_counterexample :
    watcherStep (fun s : List Nat => (Except.ok s : Except Panic (List Nat)))
        none (.ptag 0 zeroMem) = .error .panicked ∧
      watcherStep
          (fun s : List Nat => (Except.ok s : Except Panic (List Nat)))
          none (.ptag 0 zeroMem) ≠ .ok (none, []) := by
  decide

/-- C5 (amended): when a tag with a new identifier is found but decoding
its content fails, the watcher iteration panics — the decode error is
unwrapped inside `read_string` — aborting the loop with no event sent and
no retry; the source's error-reporting branch (user_requests.rs lines
178-184) is unreachable, and it would in any case adopt the new identifier
(line 185 runs regardless of the decode result), so no retry would occur
even there. -/
theorem watcher_decode_failure_aborts {α : Type}
    (deser : List Nat → Except Panic α) (last : Option Nat) (uid : Nat)
    (mem : TagMem) (e : Panic) (hnew : last ≠ some uid)
    (hdec : read_string mem = .error e) :
    watcherStep deser last (.ptag uid mem) = .error e := by
  simp [watcherStep, if_neg hnew, hdec]

/-- Witness for the amended C5 at a concrete undecodable tag. -/
theorem watcher_decode_failure_aborts_witness :
    watcherStep (fun s : List Nat => (Except.ok s : Except Panic (List Nat)))
        (some 5) (.ptag 0 zeroMem) = .error .panicked :=
  watcher_decode_failure_aborts _ (some 5) 0 zeroMem .panicked
    (by decide) (by decide)

/-- C4: `open_tag` on a tag-free field propagates the crate's timeout
error instead of returning `Ok(None)`; in fact no bus state at all makes
the live `open_tag` return `Ok(None)` — the absence outcome (and with it
the watcher's whole absence branch) is unreachable.  The commented-out
earlier version of `open_tag` (rfid.rs lines 90-106), which returns
`Ok(None)` exactly when `new_card_present()` is not `Ok`, documents the
intended behaviour the claim describes. -/
theorem open_tag_absent_is_error :
    open_tag .absent = .error .timeout ∧
      ∀ b : BusState, open_tag b ≠ .ok none := by
  refine ⟨rfl, ?_⟩
  intro b
  cases b <;> simp [open_tag, new_card_present, read_card_serial]

/-- Witness for C4 at the concrete absent-tag bus state. -/
theorem open_tag_absent_is_error_witness :
    open_tag BusState.absent = .error .timeout ∧
      open_tag BusState.absent ≠ .ok none :=
  ⟨open_tag_absent_is_error.1, open_tag_absent_is_error.2 BusState.absent⟩

/-- C9: at the failing input — a fresh reader (block 0, offset 0) asked
for zero bytes — `TagReader::read` succeeds with zero bytes but advances
`current_block` from 0 to 1, silently skipping the first block's 16 bytes:
`(0 + 0) % 16 == 0` triggers the block advance although the offset never
reached 16. -/
theorem read_zero_request_skips_block :
    TagReader.read { current_block := 0, current_pos_in_block := 0 }
        zeroMem 0 =
      .ok ([], { current_block := 1, current_pos_in_block := 0 }) := by
  decide

/-- C6: from a writer with an empty staging buffer (and capacity left):
writing exactly 16 bytes with no intervening flush commits exactly one
block and leaves the staging buffer empty (the offset stays 0); writing
1-15 bytes commits nothing until `flush` is called, after which exactly
one block — the bytes zero-padded to 16 — has been committed. -/
theorem write_block_accounting (w : TagWriter) (bs : List Nat)
    (hpos : w.current_pos_in_buffered_data = 0)
    (hblen : w.buffered_data.length = 16)
    (hcap : w.current_block < 9) :
    (bs.length = 16 →
      w.write bs = ([(addrOf w.current_block, bs)],
        .ok (bs.length, { w with current_block := w.current_block + 1 }))) ∧
    (1 ≤ bs.length → bs.length ≤ 15 →
      w.write bs = ([], .ok (bs.length,
        { w with
          buffered_data := bs ++ w.buffered_data.drop bs.length,
          current_pos_in_buffered_data := bs.length })) ∧
      TagWriter.flush { w with
          buffered_data := bs ++ w.buffered_data.drop bs.length,
          current_pos_in_buffered_data := bs.length } =
        ([(addrOf w.current_block,
            bs ++ List.replicate (16 - bs.length) 0)],
          .ok ⟨w.current_block + 1, List.replicate 16 0, 0⟩)) := by
  constructor
  · intro h16
    unfold TagWriter.write
    rw [if_neg (by omega)]
    unfold TagWriter.writeChunks
    rw [chunks16_step bs (by omega)]
    rw [List.take_of_length_le (by omega), List.drop_eq_nil_of_le (by omega)]
    simp only [TagWriter.foldChunks, chunks16]
    rw [if_pos h16, DATA_BLOCKS_lookup hcap]
    simp [Except.map, h16]
  · intro h1 h15
    constructor
    · unfold TagWriter.write
      rw [if_neg (by omega)]
      unfold TagWriter.writeChunks
      rw [chunks16_small bs (by
          intro hnil
          rw [hnil] at h1
          simp at h1) (by omega)]
      simp only [TagWriter.foldChunks]
      rw [if_neg (by omega)]
      simp [Except.map, hpos]
    · unfold TagWriter.flush
      rw [if_pos (by simp only; omega)]
      rw [DATA_BLOCKS_lookup (by simp only; omega)]
      simp only
      rw [List.take_left' rfl]

/-- Witness for C6: a full block and a 3-byte partial block from a fresh
writer. -/
theorem write_block_accounting_witness :
    (freshWriter.write (List.replicate 16 3) =
      ([(addrOf 0, List.replicate 16 3)],
        .ok ((List.replicate 16 3).length,
          { freshWriter with current_block := 1 }))) ∧
    (freshWriter.write [1, 2, 3] = ([], .ok (([1, 2, 3] : List Nat).length,
      { freshWriter with
        buffered_data := [1, 2, 3] ++ freshWriter.buffered_data.drop 3,
        current_pos_in_buffered_data := 3 })) ∧
      TagWriter.flush { freshWriter with
          buffered_data := [1, 2, 3] ++ freshWriter.buffered_data.drop 3,
          current_pos_in_buffered_data := 3 } =
        ([(addrOf 0, [1, 2, 3] ++ List.replicate 13 0)],
          .ok ⟨1, List.replicate 16 0, 0⟩)) :=
  ⟨(write_block_accounting freshWriter (List.replicate 16 3) rfl (by decide)
      (by decide)).1 (by decide),
    (write_block_accounting freshWriter [1, 2, 3] rfl (by decide)
      (by decide)).2 (by decide) (by decide)⟩

/-- Concatenating two adjacent shifted index ranges under a map. -/
theorem map_range_shift_append {β : Type} (f : Nat → β) (k a b : Nat) :
    (List.range a).map (fun i => f (k + i)) ++
      (List.range b).map (fun i => f (k + a + i)) =
    (List.range (a + b)).map (fun i => f (k + i)) := by
  rw [List.range_add, List.map_append, List.map_map]
  congr 1
  apply List.map_congr_left
  intro j _
  simp only [Function.comp_apply]
  congr 1
  omega

/-- The chunk fold commits only to the consecutive table addresses from
the current block on, never beyond the table and never back to an earlier
block; it fails exactly by attempting the block after the ninth. -/
theorem foldChunks_commits (cl : List (List Nat)) :
    ∀ (w : TagWriter) (k : Nat), w.current_block = k → k ≤ 9 →
    ∃ c, (w.foldChunks cl).1.map Prod.fst =
        (List.range c).map (fun i => addrOf (k + i)) ∧ k + c ≤ 9 ∧
      (∀ w', (w.foldChunks cl).2 = .ok w' → w'.current_block = k + c) ∧
      (∀ e, (w.foldChunks cl).2 = .error e → k + c = 9) := by
  induction cl with
  | nil =>
    intro w k hb hk
    refine ⟨0, by simp [TagWriter.foldChunks], by omega, ?_,
      by simp [TagWriter.foldChunks]⟩
    intro w' h
    simp only [TagWriter.foldChunks, Except.ok.injEq] at h
    rw [← h, hb]
    omega
  | cons chunk more ih =>
    intro w k hb hk
    unfold TagWriter.foldChunks
    rw [hb]
    by_cases h16 : chunk.length = 16
    · rw [if_pos h16]
      by_cases hk9 : k < 9
      · rw [DATA_BLOCKS_lookup hk9]
        obtain ⟨c, hmap, hle, hok, herr⟩ :=
          ih { w with current_block := k + 1 } (k + 1) rfl (by omega)
        refine ⟨c + 1, ?_, by omega, ?_, ?_⟩
        · simp only [List.map_cons]
          rw [hmap, List.range_succ_eq_map, List.map_cons, List.map_map]
          congr 1
          simp
          intro a _
          exact congrArg addrOf (by omega)
        · intro w' h
          have := hok w' h
          omega
        · intro e h
          have := herr e h
          omega
      · rw [DATA_BLOCKS_lookup_none (by omega)]
        exact ⟨0, by simp, by omega, by simp, fun e _ => by omega⟩
    · rw [if_neg h16]
      exact ih _ k rfl hk

/-- The `flush` commits at most the current block, never beyond the table and
never back to an earlier block; it fails exactly by attempting the block
after the ninth. -/
theorem flush_commits (w : TagWriter) (k : Nat) (hb : w.current_block = k)
    (hk : k ≤ 9) :
    ∃ c, (w.flush).1.map Prod.fst =
        (List.range c).map (fun i => addrOf (k + i)) ∧ k + c ≤ 9 ∧
      (∀ w', (w.flush).2 = .ok w' → w'.current_block = k + c) ∧
      (∀ e, (w.flush).2 = .error e → k + c = 9) := by
  unfold TagWriter.flush
  rw [hb]
  by_cases hp : 0 < w.current_pos_in_buffered_data
  · rw [if_pos hp]
    by_cases hk9 : k < 9
    · rw [DATA_BLOCKS_lookup hk9]
      refine ⟨1, by simp [List.range_succ], by omega, ?_, by simp⟩
      intro w' h
      simp only [Except.ok.injEq] at h
      rw [← h]
    · rw [DATA_BLOCKS_lookup_none (by omega)]
      exact ⟨0, by simp, by omega, by simp, fun e _ => by omega⟩
  · rw [if_neg hp]
    refine ⟨0, by simp, by omega, ?_, by simp⟩
    intro w' h
    simp only [Except.ok.injEq] at h
    rw [← h, hb]
    omega

/-- A single `write` call commits only to the consecutive table addresses
from the current block on, never beyond the table and never back to an
earlier block; it fails exactly by attempting the block after the
ninth. -/
theorem write_commits (w : TagWriter) (buf : List Nat) (k : Nat)
    (hb : w.current_block = k) (hk : k ≤ 9) (cs : Commits)
    (res : Except Panic (Nat × TagWriter)) (h : w.write buf = (cs, res)) :
    ∃ c, cs.map Prod.fst =
        (List.range c).map (fun i => addrOf (k + i)) ∧ k + c ≤ 9 ∧
      (∀ n w', res = .ok (n, w') → w'.current_block = k + c) ∧
      (∀ e, res = .error e → k + c = 9) := by
  unfold TagWriter.write at h
  by_cases hp : 0 < w.current_pos_in_buffered_data
  · rw [if_pos hp] at h
    by_cases h16 : w.current_pos_in_buffered_data +
        min buf.length (16 - w.current_pos_in_buffered_data) = 16
    · rw [if_pos h16] at h
      obtain ⟨cf, fmap, fle, fok, ferr⟩ :=
        flush_commits { w with
          buffered_data := w.buffered_data.take w.current_pos_in_buffered_data
            ++ buf.take (min buf.length (16 - w.current_pos_in_buffered_data))
            ++ w.buffered_data.drop (w.current_pos_in_buffered_data +
              min buf.length (16 - w.current_pos_in_buffered_data)),
          current_pos_in_buffered_data := w.current_pos_in_buffered_data +
            min buf.length (16 - w.current_pos_in_buffered_data) } k hb hk
      rcases hf : TagWriter.flush { w with
          buffered_data := w.buffered_data.take w.current_pos_in_buffered_data
            ++ buf.take (min buf.length (16 - w.current_pos_in_buffered_data))
            ++ w.buffered_data.drop (w.current_pos_in_buffered_data +
              min buf.length (16 - w.current_pos_in_buffered_data)),
          current_pos_in_buffered_data := w.current_pos_in_buffered_data +
            min buf.length (16 - w.current_pos_in_buffered_data) }
        with ⟨cs1, res1⟩
      rw [hf] at h fmap fok ferr
      simp only at fmap fok ferr
      cases res1 with
      | error e =>
        simp only [Prod.mk.injEq] at h
        refine ⟨cf, ?_, fle, ?_, ?_⟩
        · rw [← h.1]
          exact fmap
        · intro n w' hw
          rw [← h.2] at hw
          simp at hw
        · intro e' _
          exact ferr e rfl
      | ok w2 =>
        simp only [] at h
        obtain ⟨c2, cmap, cle, cok, cerr⟩ :=
          foldChunks_commits
            (chunks16 (buf.drop
              (min buf.length (16 - w.current_pos_in_buffered_data))))
            w2 (k + cf) (fok w2 rfl) fle
        rcases hr : TagWriter.foldChunks w2
            (chunks16 (buf.drop
              (min buf.length (16 - w.current_pos_in_buffered_data))))
          with ⟨cs2, res2⟩
        rw [hr] at cmap cok cerr
        simp only at cmap cok cerr
        unfold TagWriter.writeChunks at h
        rw [hr] at h
        simp only [Prod.mk.injEq] at h
        refine ⟨cf + c2, ?_, by omega, ?_, ?_⟩
        · rw [← h.1, List.map_append, fmap, cmap]
          exact map_range_shift_append addrOf k cf c2
        · intro n w' hw
          rw [← h.2] at hw
          cases res2 with
          | error e => simp [Except.map] at hw
          | ok w3 =>
            simp only [Except.map, Except.ok.injEq, Prod.mk.injEq] at hw
            rw [← hw.2]
            have := cok w3 rfl
            omega
        · intro e hw
          rw [← h.2] at hw
          cases res2 with
          | error e' =>
            have := cerr e' rfl
            omega
          | ok w3 => simp [Except.map] at hw
    · rw [if_neg h16] at h
      simp only [Prod.mk.injEq] at h
      refine ⟨0, ?_, by omega, ?_, ?_⟩
      · rw [← h.1]
        simp
      · intro n w' hw
        rw [← h.2] at hw
        simp only [Except.ok.injEq, Prod.mk.injEq] at hw
        rw [← hw.2, hb]
        omega
      · intro e hw
        rw [← h.2] at hw
        simp at hw
  · rw [if_neg hp] at h
    simp only [] at h
    obtain ⟨c, cmap, cle, cok, cerr⟩ :=
      foldChunks_commits (chunks16 buf) w k hb hk
    rcases hr : TagWriter.foldChunks w (chunks16 buf) with ⟨cs2, res2⟩
    rw [hr] at cmap cok cerr
    simp only at cmap cok cerr
    unfold TagWriter.writeChunks at h
    rw [hr] at h
    simp only [Prod.mk.injEq] at h
    refine ⟨c, ?_, cle, ?_, ?_⟩
    · rw [← h.1]
      exact cmap
    · intro n w' hw
      rw [← h.2] at hw
      cases res2 with
      | error e => simp [Except.map] at hw
      | ok w3 =>
        simp only [Except.map, Except.ok.injEq, Prod.mk.injEq] at hw
        rw [← hw.2]
        exact cok w3 rfl
    · intro e hw
      rw [← h.2] at hw
      cases res2 with
      | error e' => exact cerr e' rfl
      | ok w3 => simp [Except.map] at hw


/-- Any operation sequence commits only to the consecutive table
addresses from the starting block on, never beyond the table and never
back to an earlier block; a failing run fails exactly at the attempt to
address the block after the ninth. -/
theorem runOps_commits (ops : List WriterOp) :
    ∀ (w : TagWriter) (k : Nat), w.current_block = k → k ≤ 9 →
    ∀ cs res, runOps w ops = (cs, res) →
    ∃ c, cs.map Prod.fst = (List.range c).map (fun i => addrOf (k + i)) ∧
      k + c ≤ 9 ∧
      (∀ w', res = .ok w' → w'.current_block = k + c) ∧
      (∀ e, res = .error e → k + c = 9) := by
  induction ops with
  | nil =>
    intro w k hb hk cs res h
    simp only [runOps, Prod.mk.injEq] at h
    refine ⟨0, ?_, by omega, ?_, ?_⟩
    · rw [← h.1]
      simp
    · intro w' hw
      rw [← h.2] at hw
      simp only [Except.ok.injEq] at hw
      rw [← hw, hb]
      omega
    · intro e hw
      rw [← h.2] at hw
      simp at hw
  | cons op ops ih =>
    intro w k hb hk cs res h
    unfold runOps at h
    cases op with
    | write buf =>
      simp only [runOp] at h
      rcases hw : w.write buf with ⟨cs1, res1⟩
      rw [hw] at h
      obtain ⟨c1, omap, ole, ook, oerr⟩ :=
        write_commits w buf k hb hk cs1 res1 hw
      cases res1 with
      | error e =>
        simp only [Except.map, Prod.mk.injEq] at h
        refine ⟨c1, ?_, ole, ?_, ?_⟩
        · rw [← h.1]
          exact omap
        · intro w' hres
          rw [← h.2] at hres
          simp at hres
        · intro e' _
          exact oerr e rfl
      | ok p =>
        rcases p with ⟨n, w1⟩
        simp only [Except.map] at h
        rcases hrec : runOps w1 ops with ⟨cs2, res2⟩
        rw [hrec] at h
        simp only [Prod.mk.injEq] at h
        obtain ⟨c2, rmap, rle, rok, rerr⟩ :=
          ih w1 (k + c1) (ook n w1 rfl) ole cs2 res2 hrec
        refine ⟨c1 + c2, ?_, by omega, ?_, ?_⟩
        · rw [← h.1, List.map_append, omap, rmap]
          exact map_range_shift_append addrOf k c1 c2
        · intro w' hres
          rw [← h.2] at hres
          have := rok w' hres
          omega
        · intro e hres
          rw [← h.2] at hres
          have := rerr e hres
          omega
    | flush =>
      simp only [runOp] at h
      obtain ⟨c1, omap, ole, ook, oerr⟩ := flush_commits w k hb hk
      rcases hw : w.flush with ⟨cs1, res1⟩
      rw [hw] at h omap ook oerr
      simp only at omap ook oerr
      cases res1 with
      | error e =>
        simp only [Prod.mk.injEq] at h
        refine ⟨c1, ?_, ole, ?_, ?_⟩
        · rw [← h.1]
          exact omap
        · intro w' hres
          rw [← h.2] at hres
          simp at hres
        · intro e' _
          exact oerr e rfl
      | ok w1 =>
        simp only [] at h
        rcases hrec : runOps w1 ops with ⟨cs2, res2⟩
        rw [hrec] at h
        simp only [Prod.mk.injEq] at h
        obtain ⟨c2, rmap, rle, rok, rerr⟩ :=
          ih w1 (k + c1) (ook w1 rfl) ole cs2 res2 hrec
        refine ⟨c1 + c2, ?_, by omega, ?_, ?_⟩
        · rw [← h.1, List.map_append, omap, rmap]
          exact map_range_shift_append addrOf k c1 c2
        · intro w' hres
          rw [← h.2] at hres
          have := rok w' hres
          omega
        · intro e hres
          rw [← h.2] at hres
          have := rerr e hres
          omega

/-- C2 (amended): over every operation sequence on a fresh writer, the
commit trace targets exactly the table addresses of blocks 0, 1, 2, … in
order — never more than 9 commits and never a wraparound onto block 0's
address — and when a run fails it is the fail-fast out-of-bounds index
panic at the attempt to address a 10th block, after exactly 9 commits.
(The code has no `CapacityExceeded` error value; exceeding the capacity
aborts the process, see the counterexample.) -/
theorem write_capacity_fail_fast (ops : List WriterOp) (cs : Commits)
    (res : Except Panic TagWriter) (h : runOps freshWriter ops = (cs, res)) :
    cs.map Prod.fst = (List.range cs.length).map addrOf ∧ cs.length ≤ 9 ∧
      ∀ e, res = .error e → cs.length = 9 := by
  obtain ⟨c, hmap, hle, hok, herr⟩ :=
    runOps_commits ops freshWriter 0 rfl (by omega) cs res h
  have hlen : cs.length = c := by
    have := congrArg List.length hmap
    simpa using this
  refine ⟨?_, by omega, ?_⟩
  · rw [hlen, hmap]
    apply List.map_congr_left
    intro a _
    simp
  · intro e hres
    have := herr e hres
    omega

/-- Witness for the amended C2: a single 160-byte write panics after
committing exactly the nine table blocks in order. -/
theorem write_capacity_fail_fast_witness :
    ((runOps freshWriter [.write (List.replicate 160 7)]).1).map Prod.fst =
      (List.range
        ((runOps freshWriter [.write (List.replicate 160 7)]).1).length).map
        addrOf ∧
    ((runOps freshWriter [.write (List.replicate 160 7)]).1).length ≤ 9 ∧
    ∀ e, (runOps freshWriter [.write (List.replicate 160 7)]).2 =
        .error e →
      ((runOps freshWriter [.write (List.replicate 160 7)]).1).length = 9 :=
  write_capacity_fail_fast [.write (List.replicate 160 7)] _ _ rfl

/-- C2 counterexample: writing 160 bytes to a fresh writer does not
surface any error value — in particular no `CapacityExceeded`, which does
not exist in the code — but aborts with the out-of-bounds panic
`DATA_BLOCKS[9]` raises, after the nine in-order commits; the claim's
"fails fast with a CapacityExceeded error" names a recoverable error
return the code never produces. -/
theorem write_capacity_counterexample :
    (runOps freshWriter [.write (List.replicate 160 7)]).2 =
      .error .panicked ∧
    (runOps freshWriter [.write (List.replicate 160 7)]).1.map Prod.fst =
      (List.range 9).map addrOf := by
  decide

/-- C7: `flush` with an empty staging buffer is a no-op — no commit, state
unchanged, for every writer state — and consequently a second `flush`
directly after any successful `flush` commits nothing. -/
theorem flush_empty_noop (w : TagWriter) :
    (w.current_pos_in_buffered_data = 0 → w.flush = ([], .ok w)) ∧
      ∀ cs w', w.flush = (cs, .ok w') → w'.flush = ([], .ok w') := by
  constructor
  · intro h
    simp [TagWriter.flush, h]
  · intro cs w' h
    unfold TagWriter.flush at h
    by_cases hp : 0 < w.current_pos_in_buffered_data
    · rw [if_pos hp] at h
      rcases ha : DATA_BLOCKS[w.current_block]? with _ | addr <;> rw [ha] at h
      · simp at h
      · simp at h
        rw [← h.2]
        simp [TagWriter.flush]
    · rw [if_neg hp] at h
      simp at h
      rw [← h.2]
      simp [TagWriter.flush, Nat.not_lt.mp hp |> Nat.le_zero.mp]

/-- Witness for C7 at a fresh writer. -/
theorem flush_empty_noop_witness :
    freshWriter.flush = ([], .ok freshWriter) :=
  (flush_empty_noop freshWriter).1 rfl

/-- C8: a reader whose cursor has reached block index 9 returns zero bytes
successfully on every further `read` call, without changing the cursor;
iterating any number of reads keeps succeeding with zero bytes and the
cursor fixed. -/
theorem read_at_end_idempotent (mem : TagMem) (r : TagReader) (len : Nat)
    (h : r.current_block = 9) :
    r.read mem len = .ok ([], r) ∧
      ∀ k, readIter mem r len k = .ok (List.replicate k [], r) := by
  have h1 : r.read mem len = .ok ([], r) := by
    simp [TagReader.read, N_BLOCKS, h]
  refine ⟨h1, ?_⟩
  intro k
  induction k with
  | zero => simp [readIter]
  | succ k ih => simp [readIter, h1, ih, List.replicate_succ]

/-- Witness for C8 at a concrete end-of-stream reader. -/
theorem read_at_end_idempotent_witness :
    readIter zeroMem { current_block := 9, current_pos_in_block := 0 } 5 3 =
      .ok (List.replicate 3 [],
        { current_block := 9, current_pos_in_block := 0 }) :=
  (read_at_end_idempotent zeroMem
    { current_block := 9, current_pos_in_block := 0 } 5 rfl).2 3

/-- C10: whenever `TagWriter::write` succeeds it reports having written
the full input slice — `Ok(buf.len())` — regardless of how much of the
input was only staged rather than committed. -/
theorem write_reports_full_length (w : TagWriter) (buf : List Nat)
    (cs : Commits) (n : Nat) (w' : TagWriter)
    (h : w.write buf = (cs, .ok (n, w'))) : n = buf.length := by
  unfold TagWriter.write at h
  by_cases hp : 0 < w.current_pos_in_buffered_data
  · rw [if_pos hp] at h
    set w1 : TagWriter := { w with
      buffered_data := w.buffered_data.take w.current_pos_in_buffered_data ++
        buf.take (min buf.length (16 - w.current_pos_in_buffered_data)) ++
        w.buffered_data.drop (w.current_pos_in_buffered_data +
          min buf.length (16 - w.current_pos_in_buffered_data)),
      current_pos_in_buffered_data := w.current_pos_in_buffered_data +
        min buf.length (16 - w.current_pos_in_buffered_data) } with hw1
    by_cases h16 : w1.current_pos_in_buffered_data = 16
    · rw [if_pos h16] at h
      rcases hf : w1.flush with ⟨cs1, e1⟩
      rw [hf] at h
      cases e1 with
      | error e => simp at h
      | ok w2 =>
        simp only at h
        have := congrArg Prod.snd h
        simp only at this
        exact except_map_pair_ok this
    · rw [if_neg h16] at h
      have h2 := congrArg Prod.snd h
      simp only [Except.ok.injEq, Prod.mk.injEq] at h2
      omega
  · rw [if_neg hp] at h
    have := congrArg Prod.snd h
    simp only at this
    exact except_map_pair_ok this

/-- Witness for C10 at a concrete staged write. -/
theorem write_reports_full_length_witness : (3 : Nat) = [1, 2, 3].length :=
  write_reports_full_length freshWriter [1, 2, 3] []
    3 { current_block := 0, buffered_data := [1, 2, 3] ++ List.replicate 13 0,
        current_pos_in_buffered_data := 3 } (by decide)

end Rustberry
